import Mathlib

/-!
Verification of the bookmark-clustering pipeline (`bookmark_cli`).

This file shallowly embeds the parts of the repository needed by the claims:

* `normalizer.py` (`normalize_url`, `deduplicate_entries`), together with the
  fragment of CPython 3.11.6 `urllib.parse` that `normalize_url` calls
  (`urlsplit`, `urlparse`, `urlunsplit`, `urlunparse`, the `_hostinfo`,
  `hostname` and `port` accessors).  Strings are modelled as `List Char`
  wrapped in `String`; `str.lower` is modelled on ASCII (`Char.toLower`),
  which agrees with Python on every ASCII input.  The NFKC check
  `_checknetloc` performs on non-ASCII netlocs is modelled as a no-op.
* `categorizer.py` (`categorize_bookmarks`, `build_folders`,
  `_split_large_group`).
* `llm_client.py` (`categorize_batch`'s validation and fallback).
* `fetcher.py` (`fetch_single` under the `tenacity` retry decorator).
* `exporter.py` (`export_to_chrome_format`, `export_to_chrome_html`).

Python dict entries are modelled as a structure of `Option` fields (a `none`
field is an absent key); `dict.get(k, d)` becomes `Option.getD`.  Float
confidences are modelled as rationals (the program only ever compares them
and passes them through).  Python's stable `sorted` is modelled by
`List.insertionSort`, which is stable for the orders used here.
-/

namespace BookmarkCli

/-! ## Python string primitives (on `List Char`) -/

/-- Python `str.lower`, restricted to ASCII (all inputs in this file). -/
def lowerL (l : List Char) : List Char := l.map Char.toLower

/-- Python `str.partition(c)`: split at the first occurrence of `c`;
    the `Bool` records whether the separator was found. -/
def pypartition (c : Char) (l : List Char) : List Char × Bool × List Char :=
  let a := l.takeWhile (fun x => x ≠ c)
  match l.dropWhile (fun x => x ≠ c) with
  | [] => (a, false, [])
  | _ :: rest => (a, true, rest)

/-- Python `str.rpartition(c)`: split at the last occurrence of `c`;
    when absent, Python returns `('', '', original)`. -/
def pyrpartition (c : Char) (l : List Char) : List Char × Bool × List Char :=
  let ra := l.reverse.takeWhile (fun x => x ≠ c)
  match l.reverse.dropWhile (fun x => x ≠ c) with
  | [] => ([], false, l)
  | _ :: rest => (rest.reverse, true, ra.reverse)

/-- Python `str.find(c, start)` restricted to success as an index option. -/
def findIdxFrom (p : Char → Bool) (start : Nat) (l : List Char) : Option Nat :=
  ((l.drop start).findIdx? p).map (· + start)

/-- Python `str.rfind(c)` for a character known to occur (else `0`). -/
def lastIdxOf (c : Char) (l : List Char) : Nat :=
  match l.reverse.findIdx? (fun x => x == c) with
  | some j => l.length - 1 - j
  | none => 0

/-- Digits-to-value, for Python `int(port)` on an all-digit string. -/
def digitsVal (l : List Char) : Nat :=
  l.foldl (fun n c => n * 10 + (c.toNat - '0'.toNat)) 0

/-- Decimal rendering, fuel-driven so the kernel can evaluate it. -/
def natDigitsGo : Nat → Nat → List Char → List Char
  | 0, _, acc => acc
  | fuel + 1, n, acc =>
    let d := Char.ofNat ('0'.toNat + n % 10)
    if n < 10 then d :: acc else natDigitsGo fuel (n / 10) (d :: acc)

/-- Decimal rendering of a natural number, for Python `str(port)`. -/
def natDigits (n : Nat) : List Char := natDigitsGo (n + 1) n []

/-! ## CPython 3.11.6 `urllib.parse` (the fragment `normalize_url` uses) -/

/-- A parse result: `scheme`, `netloc`, `path`, `params`, `query`, `fragment`.
    `urlsplit` leaves `params` empty; `urlparse` may split it off the path. -/
structure PyUrl where
  scheme : List Char
  netloc : List Char
  path : List Char
  params : List Char
  query : List Char
  fragment : List Char
deriving DecidableEq, Repr

/-- Python `_UNSAFE_URL_BYTES_TO_REMOVE = ['\t', '\r', '\n']` removal. -/
def removeUnsafe (l : List Char) : List Char :=
  l.filter (fun c => !(c == '\t' || c == '\r' || c == '\n'))

/-- Python `scheme_chars` membership. -/
def isSchemeChar (c : Char) : Bool :=
  c.isAlpha || c.isDigit || c == '+' || c == '-' || c == '.'

/-- Python `uses_netloc` (CPython 3.11.6). -/
def usesNetloc : List (List Char) :=
  ["", "ftp", "http", "gopher", "nntp", "telnet", "imap", "wais", "file",
   "mms", "https", "shttp", "snews", "prospero", "rtsp", "rtsps", "rtspu",
   "rsync", "svn", "svn+ssh", "sftp", "nfs", "git", "git+ssh", "ws",
   "wss"].map String.data

/-- Python `uses_params` (CPython 3.11.6). -/
def usesParams : List (List Char) :=
  ["", "ftp", "hdl", "prospero", "http", "imap", "https", "shttp", "rtsp",
   "rtsps", "rtspu", "sip", "sips", "mms", "sftp", "tel"].map String.data

/-- Python `url.lstrip(_WHATWG_C0_CONTROL_OR_SPACE)`: drop leading chars `≤ 0x20`. -/
def lstripC0 (l : List Char) : List Char :=
  l.dropWhile (fun c => c.toNat ≤ 0x20)

/-! ### `ipaddress` textual validation (used by `_check_bracketed_host`) -/

/-- Membership in `_HEX_DIGITS`. -/
def isHexDigitPy (c : Char) : Bool :=
  c.isDigit || ('a' ≤ c ∧ c ≤ 'f') || ('A' ≤ c ∧ c ≤ 'F')

/-- Python `IPv4Address._parse_octet` as a predicate. -/
def parseOctetOk (l : List Char) : Bool :=
  l ≠ [] ∧ l.all Char.isDigit ∧ l.length ≤ 3 ∧
  (l = ['0'] ∨ l.headD ' ' ≠ '0') ∧ digitsVal l ≤ 255

/-- Python `IPv4Address._ip_int_from_string` as a predicate. -/
def isIPv4String (l : List Char) : Bool :=
  l ≠ [] ∧
  (let octets := l.splitOn '.'
   octets.length = 4 ∧ octets.all parseOctetOk)

/-- Python `IPv6Address._parse_hextet` as a predicate. -/
def parseHextetOk (l : List Char) : Bool :=
  l.all isHexDigitPy ∧ l.length ≤ 4 ∧ l ≠ []

/-- Python `IPv6Address._ip_int_from_string` as a predicate (on the address with
    any scope id already removed).  An embedded IPv4 suffix is replaced by
    two placeholder hextets, which is validity-preserving. -/
def isIPv6Body (l : List Char) : Bool :=
  if l = [] then false
  else
    let parts0 := l.splitOn ':'
    if parts0.length < 3 then false
    else
      let last := parts0.getLastD []
      if last.contains '.' ∧ ¬ isIPv4String last then false
      else
        let parts := if last.contains '.' then parts0.dropLast ++ [['0'], ['0']] else parts0
        if parts.length > 9 then false
        else
          let n := parts.length
          let inner := ((List.range n).drop 1).take (n - 2) |>.filter (fun i => parts.getD i [' '] = [])
          match inner with
          | [] =>
            n = 8 ∧ parts.headD [] ≠ [] ∧ parts.getLastD [] ≠ [] ∧ parts.all parseHextetOk
          | [i] =>
            let hi := if parts.headD [] = [] then i - 1 else i
            let lo := if parts.getLastD [] = [] then n - i - 2 else n - i - 1
            (parts.headD [] = [] → i - 1 = 0) ∧
            (parts.getLastD [] = [] → n - i - 2 = 0) ∧
            hi + lo ≤ 7 ∧
            (parts.take hi).all parseHextetOk ∧
            ((parts.reverse.take lo).all parseHextetOk)
          | _ => false

/-- Python `IPv6Address.__init__` on a string: split a `%scope`, validate both. -/
def isIPv6String (l : List Char) : Bool :=
  let z := pypartition '%' l
  if z.2.1 then
    (z.2.2 ≠ [] ∧ ¬ z.2.2.contains '%') ∧ isIPv6Body z.1
  else isIPv6Body l

/-- Python `_check_bracketed_host` as a predicate (`false` models the raise):
    an IPvFuture `v<hex>+.<anything nonempty>` literal, or a textual IPv6
    address; a valid IPv4 address or anything else is rejected. -/
def checkBracketedHost (hostname : List Char) : Bool :=
  match hostname with
  | 'v' :: rest =>
    let hexs := rest.takeWhile isHexDigitPy
    hexs ≠ [] ∧ (rest.drop hexs.length).headD ' ' = '.' ∧ rest.drop (hexs.length + 1) ≠ []
  | _ => ¬ isIPv4String hostname ∧ isIPv6String hostname

/-- Python `_splitnetloc(url, 2)`: the netloc runs up to the first of `/?#`. -/
def splitnetloc (l : List Char) : List Char × List Char :=
  (l.takeWhile (fun c => !(c == '/' || c == '?' || c == '#')),
   l.dropWhile (fun c => !(c == '/' || c == '?' || c == '#')))

/-- Python `urlsplit` (CPython 3.11.6); `none` models a raised `ValueError`. -/
def urlsplit (url0 : String) : Option PyUrl :=
  let url1 := removeUnsafe (lstripC0 url0.data)
  let sr :=
    match url1.findIdx? (fun c => c == ':') with
    | some i =>
      if 0 < i ∧ (url1.headD ' ').isAlpha ∧ (url1.take i).all isSchemeChar
      then (lowerL (url1.take i), url1.drop (i + 1))
      else (([] : List Char), url1)
    | none => (([] : List Char), url1)
  let scheme := sr.1
  let url2 := sr.2
  let nr :=
    if url2.take 2 = ['/', '/'] then splitnetloc (url2.drop 2)
    else (([] : List Char), url2)
  let netloc := nr.1
  let url3 := nr.2
  if (netloc.contains '[' ∧ ¬ netloc.contains ']') ∨
     (netloc.contains ']' ∧ ¬ netloc.contains '[') then
    none
  else if netloc.contains '[' ∧ netloc.contains ']' ∧
      ¬ checkBracketedHost ((pypartition ']' (pypartition '[' netloc).2.2).1) then
    none
  else
    let fr :=
      if url3.contains '#' then
        (url3.takeWhile (fun c => c ≠ '#'), (url3.dropWhile (fun c => c ≠ '#')).drop 1)
      else (url3, ([] : List Char))
    let qr :=
      if fr.1.contains '?' then
        (fr.1.takeWhile (fun c => c ≠ '?'), (fr.1.dropWhile (fun c => c ≠ '?')).drop 1)
      else (fr.1, ([] : List Char))
    some ⟨scheme, netloc, qr.1, [], qr.2, fr.2⟩

/-- Python `_splitparams` (only called when `';'` occurs in the path). -/
def splitparams (url : List Char) : List Char × List Char :=
  if url.contains '/' then
    match findIdxFrom (fun c => c == ';') (lastIdxOf '/' url) url with
    | none => (url, [])
    | some i => (url.take i, url.drop (i + 1))
  else
    match url.findIdx? (fun c => c == ';') with
    | none => (url, [])
    | some i => (url.take i, url.drop (i + 1))

/-- Python `urlparse` (CPython 3.11.6); `none` models a raised `ValueError`. -/
def urlparse (url : String) : Option PyUrl :=
  (urlsplit url).map fun r =>
    if usesParams.contains r.scheme ∧ r.path.contains ';' then
      let pr := splitparams r.path
      { r with path := pr.1, params := pr.2 }
    else r

/-- Python `_hostinfo`: the `(hostname, port)` pair hidden in a netloc. -/
def hostinfo (netloc : List Char) : List Char × Option (List Char) :=
  let hi := (pyrpartition '@' netloc).2.2
  let br := pypartition '[' hi
  if br.2.1 then
    let hb := pypartition ']' br.2.2
    let pp := pypartition ':' hb.2.2
    (hb.1, if pp.2.2 = [] then none else some pp.2.2)
  else
    let hp := pypartition ':' hi
    (hp.1, if hp.2.2 = [] then none else some hp.2.2)

/-- The `SplitResult.hostname` property: lowercases, preserving an IPv6
    zone id after `%`. -/
def pyHostname (netloc : List Char) : Option (List Char) :=
  let h := (hostinfo netloc).1
  if h = [] then none
  else
    let z := pypartition '%' h
    some (lowerL z.1 ++ (if z.2.1 then '%' :: z.2.2 else []))

/-- The `SplitResult.port` property; `Except.error` models `ValueError`. -/
def pyPort (netloc : List Char) : Except Unit (Option Nat) :=
  match (hostinfo netloc).2 with
  | none => .ok none
  | some p =>
    if p.all Char.isDigit then
      let n := digitsVal p
      if n ≤ 65535 then .ok (some n) else .error ()
    else .error ()

/-- Python `urlunsplit` (CPython 3.11.6). -/
def urlunsplit (scheme netloc url query fragment : List Char) : List Char :=
  let u1 :=
    if netloc ≠ [] ∨ (scheme ≠ [] ∧ usesNetloc.contains scheme ∧ url.take 2 ≠ ['/', '/']) then
      let u0 := if url ≠ [] ∧ url.take 1 ≠ ['/'] then '/' :: url else url
      '/' :: '/' :: (netloc ++ u0)
    else url
  let u2 := if scheme ≠ [] then scheme ++ ':' :: u1 else u1
  let u3 := if query ≠ [] then u2 ++ '?' :: query else u2
  if fragment ≠ [] then u3 ++ '#' :: fragment else u3

/-- Python `urlunparse` (CPython 3.11.6). -/
def urlunparse (c : PyUrl) : List Char :=
  let u := if c.params ≠ [] then c.path ++ ';' :: c.params else c.path
  urlunsplit c.scheme c.netloc u c.query c.fragment

/-! ## `normalizer.py` : `normalize_url` -/

/-- Python `str.rstrip('/')`: drops every trailing slash. -/
def rstripSlash (l : List Char) : List Char :=
  (l.reverse.dropWhile (fun c => c == '/')).reverse

/-- Python `normalize_url` from `bookmark_cli/normalizer.py`: lowercase scheme and
    hostname, drop default ports, strip trailing slashes from the path,
    reassemble; on any `ValueError` (modelled by `none`/`Except.error`)
    return the input unchanged.  Non-string input is out of the model. -/
def normalize_url (url : String) : String :=
  if url = "" then url
  else
    match urlparse url with
    | none => url
    | some parsed =>
      let scheme := lowerL parsed.scheme
      let hostname :=
        match pyHostname parsed.netloc with
        | some h => lowerL h
        | none => []
      match pyPort parsed.netloc with
      | .error _ => url
      | .ok port0 =>
        let port :=
          if (scheme = "http".data ∧ port0 = some 80) ∨
             (scheme = "https".data ∧ port0 = some 443) then none
          else port0
        let netloc :=
          hostname ++
            (match port with
             | some p => if p ≠ 0 then ':' :: natDigits p else []
             | none => [])
        ⟨urlunparse ⟨scheme, netloc, rstripSlash parsed.path, parsed.params,
                     parsed.query, parsed.fragment⟩⟩

example : normalize_url "https://Example.com:443/path/" = "https://example.com/path" := by decide
example : normalize_url "http://example.com:80/path" = "http://example.com/path" := by decide
example : normalize_url "https://example.com/path?query=1#fragment" =
    "https://example.com/path?query=1#fragment" := by decide
example : normalize_url "https://example.com:8080/path" = "https://example.com:8080/path" := by decide
example : normalize_url "not-a-url" = "not-a-url" := by decide
example : normalize_url "http://u@example.com/a//" = "http://example.com/a" := by decide
example : normalize_url "http://[v1.a:80]/x" = "http://v1.a:80/x" := by decide
example : normalize_url "http://v1.a:80/x" = "http://v1.a/x" := by decide
example : normalize_url "http://h/p;x/" = "http://h/p;x" := by decide
example : normalize_url "mailto:u@x" = "mailto:u@x" := by decide
example : normalize_url "////x" = "//x" := by decide
example : normalize_url "http:////x" = "http://x" := by decide
example : normalize_url "http://h:/x" = "http://h/x" := by decide
example : normalize_url "http://@/x" = "http:///x" := by decide
example : normalize_url "http://[::1]:80/x" = "http://::1/x" := by decide
example : normalize_url "http://[a[b]/x" = "http://[a[b]/x" := by decide
example : normalize_url "xyz://H:80/P/" = "xyz://h:80/P" := by decide

/-! ## Data model

A bookmark entry is a Python dict; we model the keys the pipeline touches
as `Option` fields (`none` = key absent), `dict.get(k, d)` as `Option.getD`.
Confidences are floats in the source; they are only ever stored, defaulted
and compared, so we model them as rationals. -/

structure Entry where
  id : Option String := none
  url : Option String := none
  title : Option String := none
  date_added : Option String := none
  parent : Option String := none
  domain : Option String := none
  meta : Option String := none
  meta_description : Option String := none
  last_modified : Option String := none
  folder : Option String := none
  tags : Option (List String) := none
  confidence : Option ℚ := none
  fetched_title : Option String := none
  description : Option String := none
  keywords : Option String := none
  content_snippet : Option String := none
  fetch_error : Option String := none
deriving DecidableEq, Repr

/-- Python string comparison (`<`, by code point, lexicographic). -/
def pyStrLt : List Char → List Char → Bool
  | [], [] => false
  | [], _ :: _ => true
  | _ :: _, [] => false
  | a :: as, b :: bs => if a < b then true else if b < a then false else pyStrLt as bs

/-- Python string comparison (`<=`). -/
def pyStrLe (a b : List Char) : Bool := !pyStrLt b a

/-- The sort key of `deduplicate_entries`: `x.get('date_added', '')`. -/
def dateKey (e : Entry) : String := e.date_added.getD ""

/-- Python's `sorted` is a stable ascending sort; `List.insertionSort` with
    a total preorder is one too, hence extensionally equal to it. -/
def pySortByDateKey (es : List Entry) : List Entry :=
  es.insertionSort (fun a b => pyStrLe (dateKey a).data (dateKey b).data = true)

/-! ## `normalizer.py` : `deduplicate_entries` -/

/-- The loop of `deduplicate_entries`: `urlMap` is the `url_map` dict as an
    association list; returns `(deduped, removed)`. -/
def dedupeAux : List Entry → List (String × Entry) → List Entry × List (Entry × Entry)
  | [], _ => ([], [])
  | e :: rest, urlMap =>
    if e.url.getD "" = "" then
      let r := dedupeAux rest urlMap
      (e :: r.1, r.2)
    else
      let n := normalize_url (e.url.getD "")
      match urlMap.find? (fun p => p.1 = n) with
      | some p =>
        let r := dedupeAux rest urlMap
        (r.1, (e, p.2) :: r.2)
      | none =>
        let r := dedupeAux rest ((n, e) :: urlMap)
        (e :: r.1, r.2)

/-- Python `deduplicate_entries` from `bookmark_cli/normalizer.py`. -/
def deduplicate_entries (entries : List Entry) : List Entry × List (Entry × Entry) :=
  dedupeAux (pySortByDateKey entries) []

/-! ## `categorizer.py` : `categorize_bookmarks` -/

/-- The minimal per-entry payload sent to the LLM (field-for-field the dict
    built in `categorize_bookmarks`). -/
structure PayloadItem where
  id : String
  title : String
  meta : String
  domain : String
  url : String
  last_modified : String
  original_folder : String
deriving DecidableEq, Repr

/-- Python `llm_payload` construction for one entry. -/
def payloadOf (e : Entry) : PayloadItem :=
  { id := e.id.getD ""
    title := e.title.getD ""
    meta := (e.meta_description.orElse fun _ => e.meta).getD ""
    domain := e.domain.getD ""
    url := e.url.getD ""
    last_modified := e.last_modified.getD ""
    original_folder := e.parent.getD "" }

/-- One item of an LLM result list (a dict with an `id` and optional
    `folder`, `tags`, `confidence` keys). -/
structure LLMItem where
  id : String
  folder : Option String := none
  tags : Option (List String) := none
  confidence : Option ℚ := none
deriving DecidableEq, Repr

/-- Fixed-size batching, `entries[i:i+batch_size]` for `i` in steps of
    `batch_size` (fuel-driven so the kernel can evaluate it). -/
def chunksGo (n : Nat) : Nat → List α → List (List α)
  | 0, _ => []
  | _, [] => []
  | fuel + 1, l@(_ :: _) => l.take n :: chunksGo n fuel (l.drop n)

/-- Python `chunksOf n l` is the batch list (`n = 0` cannot occur: Python's
    `range` would raise). -/
def chunksOf (n : Nat) (l : List α) : List (List α) :=
  if n = 0 then [] else chunksGo n l.length l

/-- The merge step of `categorize_bookmarks` on a found original entry. -/
def mergeRecord (e : Entry) (it : LLMItem) : Entry :=
  { e with
    folder := some (it.folder.getD "Unsorted")
    tags := some (it.tags.getD [])
    confidence := some (it.confidence.getD (mkRat 1 2)) }

/-- The per-entry fallback of `categorize_bookmarks` when the provider call
    raised for the batch. -/
def fallbackRecord (e : Entry) : Entry :=
  { e with
    folder := some (e.parent.getD "Unsorted")
    tags := some []
    confidence := some 0 }

/-- One loop iteration of `categorize_bookmarks`: merge on success, and on
    an exception re-add every batch entry (resolved through the same
    id-lookup over `entries`) as an unsorted fallback. -/
def processBatch (entries : List Entry)
    (llm : List PayloadItem → Except String (List LLMItem))
    (batch : List Entry) : List Entry :=
  let payload := batch.map payloadOf
  match llm payload with
  | .ok items =>
    items.filterMap fun it =>
      (entries.find? fun e => e.id = some it.id).map fun oe => mergeRecord oe it
  | .error _ =>
    payload.filterMap fun item =>
      (entries.find? fun e => e.id = some item.id).map fallbackRecord

/-- Python `categorize_bookmarks` from `bookmark_cli/categorizer.py`; the
    `llm_client.categorize_batch` capability is a parameter, with
    `Except.error` modelling a raised exception. -/
def categorize_bookmarks (entries : List Entry)
    (llm : List PayloadItem → Except String (List LLMItem))
    (batch_size : Nat) : List Entry :=
  (chunksOf batch_size entries).flatMap (processBatch entries llm)

/-! ## `categorizer.py` : `build_folders` and `_split_large_group` -/

/-- Python `defaultdict(list)` grouping: append `e` to the group of key `k`,
    creating it at the end on first occurrence (dict insertion order). -/
def addToGroups (gs : List (String × List Entry)) (k : String) (e : Entry) :
    List (String × List Entry) :=
  match gs with
  | [] => [(k, [e])]
  | (n, its) :: rest =>
    if n = k then (n, its ++ [e]) :: rest else (n, its) :: addToGroups rest k e

/-- Group a list by a string key, preserving dict insertion order. -/
def groupByKey (key : Entry → String) (es : List Entry) : List (String × List Entry) :=
  es.foldl (fun gs e => addToGroups gs (key e) e) []

/-- Python `entry.get("folder", "Unsorted")`. -/
def folderKey (e : Entry) : String := e.folder.getD "Unsorted"

/-- The domain used by `_split_large_group`: the `domain` field unless
    falsy or `"unknown"`, else the netloc of the parsed `url`. -/
def domainOf (item : Entry) : String :=
  let d0 := item.domain.getD "unknown"
  if d0 = "" ∨ d0 = "unknown" then
    let url := item.url.getD ""
    if url ≠ "" then
      match urlparse url with
      | some p => ⟨p.netloc⟩
      | none => "unknown"
    else d0
  else d0

/-- Python `tags[0] if tags else "misc"` over `item.get("tags", [])`. -/
def primaryTag (it : Entry) : String := (it.tags.getD []).headD "misc"

/-- Python `_split_large_group`: split by domain, oversized domain groups by
    primary tag, oversized tag groups into fixed-size shards. -/
def splitLargeGroup (items : List Entry) (max_size : Nat) : List (List Entry) :=
  (groupByKey domainOf items).flatMap fun dg =>
    if dg.2.length ≤ max_size then [dg.2]
    else
      (groupByKey primaryTag dg.2).flatMap fun tg =>
        if tg.2.length ≤ max_size then [tg.2] else chunksOf max_size tg.2

/-- Process one folder group of `build_folders`: keep small groups, split
    large ones and rewrite each split item's `folder` to the piece name
    (`"name (i)"` when there are several pieces). -/
def processGroup (max_size : Nat) (g : String × List Entry) :
    List (String × List Entry) :=
  if g.2.length ≤ max_size then [g]
  else
    let sgs := splitLargeGroup g.2 max_size
    sgs.enum.map fun p =>
      let name :=
        if sgs.length > 1 then g.1 ++ " (" ++ (⟨natDigits (p.1 + 1)⟩ : String) ++ ")"
        else g.1
      (name, p.2.map fun it => { it with folder := some name })

/-- The named pieces `build_folders` produces before the confidence pass. -/
def organizedPieces (entries : List Entry) (max_size : Nat) :
    List (String × List Entry) :=
  (groupByKey folderKey entries).flatMap (processGroup max_size)

/-- Python `build_folders` from `bookmark_cli/categorizer.py`. -/
def build_folders (entries : List Entry) (max_folder_size : Nat)
    (min_confidence : ℚ) (use_llm : Bool) : List Entry :=
  if ¬ use_llm then
    entries.map fun e => { e with folder := some (e.parent.getD "Unsorted") }
  else
    let organized := (organizedPieces entries max_folder_size).flatMap Prod.snd
    let keep := organized.filter fun e => ¬ e.confidence.getD 0 < min_confidence
    let demoted :=
      (organized.filter fun e => e.confidence.getD 0 < min_confidence).map
        fun e => { e with folder := some "Unsorted" }
    keep ++ demoted

/-! ## `llm_client.py` : `categorize_batch` validation and fallback -/

/-- One raw item of a provider response (a dict; `id` may be absent). -/
structure ProviderItem where
  id : Option String := none
  folder : Option String := none
  tags : Option (List String) := none
  confidence : Option ℚ := none
deriving DecidableEq, Repr

/-- The validation loop of `categorize_batch`: keep items that carry an
    `id`, normalize `folder`/`tags` defaults, and set `confidence := 0.7`. -/
def validateItems (response : List ProviderItem) : List LLMItem :=
  response.filterMap fun item =>
    if item.id.isSome then
      some
        { id := item.id.getD ""
          folder := some (item.folder.getD "Unsorted")
          tags := some (item.tags.getD [])
          confidence := some (mkRat 7 10) }
    else none

/-- Python `str.title()` (ASCII): uppercase a letter that follows a
    non-letter, lowercase the other letters. -/
def pyTitleGo : Bool → List Char → List Char
  | _, [] => []
  | prev, c :: rest =>
    if c.isAlpha then
      (if prev then c.toLower else c.toUpper) :: pyTitleGo true rest
    else c :: pyTitleGo false rest

/-- Python `str.title()` (ASCII). -/
def pyTitle (l : List Char) : List Char := pyTitleGo false l

/-- Python `s.split('.')[0]`. -/
def splitDotHead (l : List Char) : List Char := l.takeWhile (fun c => c ≠ '.')

/-- Python `_create_fallback_categorization`: a domain-derived folder with empty
    tags and confidence 0.3 for every payload entry of the batch. -/
def createFallbackCategorization (batch : List PayloadItem) : List LLMItem :=
  batch.map fun entry =>
    let f1 :=
      if entry.url ≠ "" then
        match urlparse entry.url with
        | some p =>
          if p.netloc ≠ [] then (⟨pyTitle (splitDotHead p.netloc)⟩ : String) else "Unsorted"
        | none => "Unsorted"
      else "Unsorted"
    let f2 :=
      if f1 = "Unsorted" ∧ entry.domain ≠ "" then
        let d := splitDotHead entry.domain.data
        if d ≠ [] then (⟨pyTitle d⟩ : String) else f1
      else f1
    let f3 := if f2 = "" ∨ f2 = "Unsorted" then entry.original_folder else f2
    { id := entry.id, folder := some f3, tags := some [], confidence := some (mkRat 3 10) }

/-- The response-handling tail of `categorize_batch`: validate the provider
    response; if nothing validates, fall back for the whole batch. -/
def categorizeBatchValidate (response : List ProviderItem)
    (batch : List PayloadItem) : List LLMItem :=
  let validated := validateItems response
  if validated = [] then createFallbackCategorization batch else validated

/-! ## `fetcher.py` : `fetch_single` under the tenacity retry decorator -/

/-- What a successful HTTP fetch and HTML parse of one page yields (the
    external collaborators `httpx`/`BeautifulSoup` are modelled as an
    oracle producing these, or an error string for a raised exception). -/
structure PageData where
  fetched_title : Option String := none
  description : Option String := none
  keywords : Option String := none
  content_snippet : Option String := none
deriving DecidableEq, Repr

/-- The body of `fetch_single`: no-url entries pass through; on success the
    four metadata keys are written; the catch-all `except` turns any raised
    error into a `fetch_error` annotation, so the body never raises. -/
def fetchSingleBody (resp : Except String PageData) (e : Entry) : Entry :=
  if e.url.getD "" = "" then e
  else
    match resp with
    | .ok p =>
      { e with
        fetched_title := p.fetched_title
        description := p.description
        keywords := p.keywords
        content_snippet := p.content_snippet }
    | .error msg => { e with fetch_error := some msg }

/-- Python `tenacity.retry(stop=stop_after_attempt(n))`: re-invoke the wrapped
    function while it raises, up to `n` attempts; returns the number of
    attempts actually made together with the outcome.  `f i` is attempt
    `i` (0-based); `Except.error` models a raise. -/
def tenacityRetry (f : Nat → Except String α) : Nat → Nat → Nat × Except String α
  | 0, i => (i, .error "")
  | fuel + 1, i =>
    match f i with
    | .ok a => (i + 1, .ok a)
    | .error msg => if fuel = 0 then (i + 1, .error msg) else tenacityRetry f fuel (i + 1)

/-- Python `fetch_single` with its `@retry(stop=stop_after_attempt(3), ...)`
    decorator; `http i` is what the network/parse oracle does on attempt
    `i`.  Returns `(attempts made, outcome)`. -/
def fetch_single (http : Nat → Except String PageData) (e : Entry) :
    Nat × Except String Entry :=
  tenacityRetry (fun i => Except.ok (fetchSingleBody (http i) e)) 3 0

/-! ## `exporter.py` -/

/-- Python `uuid.uuid4()` is a fresh random identifier; no claim depends on its
    value, so it is modelled as a fixed placeholder string. -/
def uuidPlaceholder : String := "00000000-0000-0000-0000-000000000000"

/-- Python `entry.get("date_added", "0")`, the exporter's sort key. -/
def dateKey0 (e : Entry) : String := e.date_added.getD "0"

/-- The exporter's stable date sort (`sorted(items, key=...)`). -/
def pySortByDateKey0 (es : List Entry) : List Entry :=
  es.insertionSort (fun a b => pyStrLe (dateKey0 a).data (dateKey0 b).data = true)

/-- A `"type": "url"` node of the Chrome JSON export. -/
structure BookmarkNode where
  date_added : String
  date_modified : String
  guid : String
  id : String
  name : String
  url : String
  tags : Option (List String) := none
deriving DecidableEq, Repr

/-- A `"type": "folder"` node of the Chrome JSON export. -/
structure FolderNode where
  children : List BookmarkNode
  date_added : String
  date_modified : String
  guid : String
  id : String
  name : String
deriving DecidableEq, Repr

/-- The bookmark node built for one entry. -/
def mkBookmarkNode (item : Entry) : BookmarkNode :=
  { date_added := item.date_added.getD "0"
    date_modified := item.date_added.getD "0"
    guid := uuidPlaceholder
    id := item.id.getD uuidPlaceholder
    name := ⟨(item.title.getD "No title").data.take 100⟩
    url := item.url.getD ""
    tags :=
      match item.tags with
      | some ts => if ts ≠ [] then some (ts.take 5) else none
      | none => none }

/-- Python `entry.get("folder", "Unsorted")` grouping key of the JSON export. -/
def jsonFolderGroups (entries : List Entry) : List (String × List Entry) :=
  groupByKey folderKey entries

/-- The folder nodes of `export_to_chrome_format` (in dict insertion
    order); `now_us` stands for the `datetime.now()` timestamps. -/
def export_to_chrome_format (entries : List Entry) (now_us : String) :
    List FolderNode :=
  (jsonFolderGroups entries).enum.map fun p =>
    { children := (pySortByDateKey0 p.2.2).map mkBookmarkNode
      date_added := now_us
      date_modified := now_us
      guid := uuidPlaceholder
      id := ⟨natDigits (p.1 + 1000)⟩
      name := p.2.1 }

/-- The organizer-metadata folder appended under `roots.other`. -/
structure OrganizerMeta where
  organizer_version : String
  organized_at : String
  total_bookmarks : Nat
  folders_created : Nat
deriving DecidableEq, Repr

/-- The metadata record of `export_to_chrome_format`. -/
def exportMetadata (entries : List Entry) (now_iso : String) : OrganizerMeta :=
  { organizer_version := "1.0"
    organized_at := now_iso
    total_bookmarks := entries.length
    folders_created := (jsonFolderGroups entries).length }

/-- Python `entry.get("folder", entry.get("parent", "Unsorted"))`, the HTML
    export's grouping key. -/
def htmlKey (e : Entry) : String := (e.folder.orElse fun _ => e.parent).getD "Unsorted"

/-- The HTML export's folder list: groups in `sorted(keys)` order, items
    date-sorted. -/
def htmlFolders (entries : List Entry) : List (String × List Entry) :=
  ((groupByKey htmlKey entries).insertionSort
      (fun a b => pyStrLe a.1.data b.1.data = true)).map
    fun g => (g.1, pySortByDateKey0 g.2)

/-- Python `html.escape` (with quotes). -/
def pyHtmlEscape (s : String) : String :=
  ⟨s.data.flatMap fun c =>
    if c = '&' then "&amp;".data
    else if c = '<' then "&lt;".data
    else if c = '>' then "&gt;".data
    else if c = '"' then "&quot;".data
    else if c = '\'' then "&#x27;".data
    else [c]⟩

/-- Python `int(s)` on the strings the exporter feeds it (an optional sign
    followed by ASCII digits; anything else raises, modelled as `none`). -/
def pyIntOfString (s : String) : Option Int :=
  match s.data with
  | '-' :: ds => if ds ≠ [] ∧ ds.all Char.isDigit then some (-(digitsVal ds : Int)) else none
  | ds => if ds ≠ [] ∧ ds.all Char.isDigit then some (digitsVal ds : Int) else none

/-- The ADD_DATE attribute of one HTML bookmark line: microsecond values
    are scaled to seconds, unparsable ones replaced by now. -/
def htmlDateOf (item : Entry) (now_s : String) : String :=
  let date_added := item.date_added.getD now_s
  match pyIntOfString date_added with
  | some d => if d > 10000000000 then ⟨natDigits (d / 1000000).toNat⟩ else ⟨natDigits d.toNat⟩
  | none => now_s

/-- One `<DT><A ...>` line of the HTML export. -/
def htmlBookmarkLine (item : Entry) (now_s : String) : String :=
  let title := pyHtmlEscape (item.title.getD "No title")
  let tags := item.tags.getD []
  let title :=
    if tags ≠ [] then
      title ++ " [" ++ (⟨(String.intercalate ", " (tags.take 3)).data⟩ : String) ++ "]"
    else title
  "        <DT><A HREF=\"" ++ pyHtmlEscape (item.url.getD "") ++ "\" ADD_DATE=\"" ++
    htmlDateOf item now_s ++ "\">" ++ title ++ "</A>"

/-- Python `export_to_chrome_html` from `bookmark_cli/exporter.py`; `now_s` stands
    for the `datetime.now()` timestamps. -/
def export_to_chrome_html (entries : List Entry) (now_s : String) : String :=
  let header :=
    ["<!DOCTYPE NETSCAPE-Bookmark-file-1>",
     "<!-- This is an automatically generated file.",
     "     It will be read and overwritten.",
     "     DO NOT EDIT! -->",
     "<META HTTP-EQUIV=\"Content-Type\" CONTENT=\"text/html; charset=UTF-8\">",
     "<TITLE>Bookmarks</TITLE>",
     "<H1>Bookmarks</H1>",
     "<DL><p>"]
  let folderParts := (htmlFolders entries).flatMap fun g =>
    ["    <DT><H3 ADD_DATE=\"" ++ now_s ++ "\" LAST_MODIFIED=\"" ++ now_s ++ "\">" ++
       pyHtmlEscape g.1 ++ "</H3>",
     "    <DL><p>"] ++
    (g.2.map fun item => htmlBookmarkLine item now_s) ++
    ["    </DL><p>"]
  String.intercalate "\n" (header ++ folderParts ++ ["</DL><p>"])

/-! # Theorems -/

/-! ## C2 : dedupe cardinality and uniqueness -/

/-- The normalized URLs of the url-carrying entries of a list. -/
def keptNorms (l : List Entry) : List String :=
  (l.filter fun e => e.url.getD "" ≠ "").map fun e => normalize_url (e.url.getD "")

theorem dedupeAux_length :
    ∀ (es : List Entry) (m : List (String × Entry)),
      (dedupeAux es m).1.length + (dedupeAux es m).2.length = es.length
  | [], m => by simp [dedupeAux]
  | e :: rest, m => by
    simp only [dedupeAux]
    by_cases h : e.url.getD "" = ""
    · simp only [if_pos h, List.length_cons]
      have := dedupeAux_length rest m
      omega
    · simp only [if_neg h]
      cases hf : m.find? fun p => p.1 = normalize_url (e.url.getD "") with
      | some p =>
        simp only [hf, List.length_cons]
        have := dedupeAux_length rest m
        omega
      | none =>
        simp only [hf, List.length_cons]
        have := dedupeAux_length rest ((normalize_url (e.url.getD ""), e) :: m)
        omega

theorem dedupeAux_norms :
    ∀ (es : List Entry) (m : List (String × Entry)),
      (keptNorms (dedupeAux es m).1).Nodup ∧
      ∀ n ∈ keptNorms (dedupeAux es m).1, m.find? (fun p => p.1 = n) = none
  | [], m => by simp [dedupeAux, keptNorms]
  | e :: rest, m => by
    simp only [dedupeAux]
    by_cases h : e.url.getD "" = ""
    · simp only [if_pos h]
      have ih := dedupeAux_norms rest m
      constructor
      · simpa [keptNorms, h] using ih.1
      · intro n hn
        exact ih.2 n (by simpa [keptNorms, h] using hn)
    · simp only [if_neg h]
      cases hf : m.find? fun p => p.1 = normalize_url (e.url.getD "") with
      | some p =>
        simp only [hf]
        exact dedupeAux_norms rest m
      | none =>
        simp only [hf]
        have ih := dedupeAux_norms rest ((normalize_url (e.url.getD ""), e) :: m)
        have hcons :
            keptNorms (e :: (dedupeAux rest ((normalize_url (e.url.getD ""), e) :: m)).1) =
              normalize_url (e.url.getD "") ::
                keptNorms (dedupeAux rest ((normalize_url (e.url.getD ""), e) :: m)).1 := by
          simp [keptNorms, h]
        rw [hcons]
        have hnotmem :
            normalize_url (e.url.getD "") ∉
              keptNorms (dedupeAux rest ((normalize_url (e.url.getD ""), e) :: m)).1 := by
          intro hmem
          have := ih.2 _ hmem
          simp [List.find?] at this
        refine ⟨List.Nodup.cons hnotmem ih.1, ?_⟩
        intro n hn
        rcases List.mem_cons.mp hn with hn | hn
        · subst hn; exact hf
        · have := ih.2 n hn
          rw [List.find?] at this
          rcases h2 : (decide ((normalize_url (e.url.getD ""), e).1 = n)) with _ | _
          · rw [h2] at this; simpa using this
          · rw [h2] at this; simp at this

/-- C2: dedupe returns `(kept, removed)` with
    `len(kept) + len(removed) = len(input)`, and no two kept entries that
    carry a (truthy) url share the same normalized URL. -/
theorem dedupe_card_and_unique (entries : List Entry) :
    (deduplicate_entries entries).1.length + (deduplicate_entries entries).2.length
        = entries.length ∧
      (keptNorms (deduplicate_entries entries).1).Nodup := by
  unfold deduplicate_entries
  refine ⟨?_, (dedupeAux_norms _ []).1⟩
  rw [dedupeAux_length]
  exact (List.perm_insertionSort _ entries).length_eq

/-! ## C6 : dedupe keeps the oldest entry -/

theorem pyStrLt_nil_right (l : List Char) : pyStrLt l [] = false := by
  cases l <;> rfl

theorem pyStrLt_nil_left (l : List Char) (h : l ≠ []) : pyStrLt [] l = true := by
  cases l with
  | nil => exact absurd rfl h
  | cons a as => rfl

theorem pySortByDateKey_pair (a b : Entry)
    (hab : pyStrLe (dateKey a).data (dateKey b).data = true)
    (hba : pyStrLe (dateKey b).data (dateKey a).data = false) :
    pySortByDateKey [a, b] = [a, b] ∧ pySortByDateKey [b, a] = [a, b] := by
  unfold pySortByDateKey
  constructor <;> simp [List.insertionSort, List.orderedInsert, hab, hba]

theorem dedupeAux_pair (e1 e2 : Entry) (u1 u2 : String)
    (hu1 : e1.url = some u1) (hne1 : u1 ≠ "")
    (hu2 : e2.url = some u2) (hne2 : u2 ≠ "")
    (hnorm : normalize_url u1 = normalize_url u2) :
    dedupeAux [e1, e2] [] = ([e1], [(e2, e1)]) := by
  simp [dedupeAux, hu1, hu2, hne1, hne2, List.find?, hnorm]

/-- C6: of two entries sharing a normalized URL, the one with
    `date_added = "100"` beats the one with `"200"`, in either input
    order; an entry with `date_added` absent sorts smallest and beats any
    duplicate carrying a (nonempty) date. -/
theorem dedupe_oldest_wins (e1 e2 : Entry) (u1 u2 : String)
    (hu1 : e1.url = some u1) (hne1 : u1 ≠ "")
    (hu2 : e2.url = some u2) (hne2 : u2 ≠ "")
    (hnorm : normalize_url u1 = normalize_url u2)
    (hdates : (e1.date_added = some "100" ∧ e2.date_added = some "200") ∨
      (e1.date_added = none ∧ ∃ d, e2.date_added = some d ∧ d ≠ "")) :
    deduplicate_entries [e1, e2] = ([e1], [(e2, e1)]) ∧
      deduplicate_entries [e2, e1] = ([e1], [(e2, e1)]) := by
  have hsort : pySortByDateKey [e1, e2] = [e1, e2] ∧ pySortByDateKey [e2, e1] = [e1, e2] := by
    rcases hdates with ⟨h1, h2⟩ | ⟨h1, d, h2, hdne⟩
    · have ha : dateKey e1 = "100" := by simp [dateKey, h1]
      have hb : dateKey e2 = "200" := by simp [dateKey, h2]
      exact pySortByDateKey_pair e1 e2 (by rw [ha, hb]; decide) (by rw [ha, hb]; decide)
    · have ha : dateKey e1 = "" := by simp [dateKey, h1]
      have hb : dateKey e2 = d := by simp [dateKey, h2]
      have hd : d.data ≠ [] := by
        intro hd
        exact hdne (String.ext (by simpa using hd))
      refine pySortByDateKey_pair e1 e2 ?_ ?_
      · rw [ha]
        show (!pyStrLt (dateKey e2).data "".data) = true
        simp [pyStrLt_nil_right]
      · rw [ha, hb]
        show (!pyStrLt "".data d.data) = false
        simpa using pyStrLt_nil_left d.data hd
  have hded := dedupeAux_pair e1 e2 u1 u2 hu1 hne1 hu2 hne2 hnorm
  unfold deduplicate_entries
  rw [hsort.1, hsort.2, hded]
  exact ⟨rfl, rfl⟩

/-- C6 witness: a concrete instance discharging every hypothesis. -/
theorem dedupe_oldest_wins_witness :
    deduplicate_entries
        [{ id := some "1", url := some "https://a.com/x", date_added := some "100" },
         { id := some "2", url := some "https://A.com/x/", date_added := some "200" }] =
      ([{ id := some "1", url := some "https://a.com/x", date_added := some "100" }],
       [({ id := some "2", url := some "https://A.com/x/", date_added := some "200" },
         { id := some "1", url := some "https://a.com/x", date_added := some "100" })]) :=
  (dedupe_oldest_wins
    { id := some "1", url := some "https://a.com/x", date_added := some "100" }
    { id := some "2", url := some "https://A.com/x/", date_added := some "200" }
    "https://a.com/x" "https://A.com/x/" rfl (by decide) rfl (by decide) (by decide)
    (Or.inl ⟨rfl, rfl⟩)).1

/-! ## C7 : what `normalize_url` does to the path and the authority -/

/-- The netloc `normalize_url` writes: the lowercased hostname, followed by
    the port unless it is absent, `0`, or the scheme's default. -/
def normalizedNetloc (c : PyUrl) (p : Option Nat) : List Char :=
  (match pyHostname c.netloc with
   | some h => lowerL h
   | none => []) ++
    (match
      (if (lowerL c.scheme = "http".data ∧ p = some 80) ∨
          (lowerL c.scheme = "https".data ∧ p = some 443) then none else p) with
     | some q => if q ≠ 0 then ':' :: natDigits q else []
     | none => [])

theorem char_ofNat_toNat (n : Nat) (h : Nat.isValidChar n) :
    (Char.ofNat n).toNat = n := by
  unfold Char.ofNat
  rw [dif_pos h]
  unfold Char.ofNatAux
  simp [Char.toNat, UInt32.toNat, BitVec.toNat_ofNatLt]

theorem toLower_eq_at_iff (c : Char) (h : Char.toLower c = '@') : c = '@' := by
  unfold Char.toLower at h
  simp only [] at h
  by_cases hc : c.toNat ≥ 65 ∧ c.toNat ≤ 90
  · rw [if_pos hc] at h
    have h64 : (Char.ofNat (c.toNat + 32)).toNat = '@'.toNat := by rw [h]
    have hval : Nat.isValidChar (c.toNat + 32) := by left; omega
    rw [char_ofNat_toNat _ hval] at h64
    have h2 : '@'.toNat = 64 := by decide
    omega
  · rwa [if_neg hc] at h

theorem pypartition_fst_sublist (c : Char) (l : List Char) :
    (pypartition c l).1.Sublist l := by
  simp only [pypartition]
  split <;> exact List.takeWhile_sublist _

theorem pypartition_third_sublist (c : Char) (l : List Char) :
    (pypartition c l).2.2.Sublist l := by
  simp only [pypartition]
  split
  · exact List.nil_sublist l
  · rename_i a rest h
    exact ((List.sublist_cons_self a rest).trans (h ▸ List.dropWhile_sublist _))

theorem pyrpartition_not_mem_third (c : Char) (l : List Char) :
    c ∉ (pyrpartition c l).2.2 := by
  simp only [pyrpartition]
  split
  · rename_i h
    intro hc
    have h2 := (List.dropWhile_eq_nil_iff.mp h) c (List.mem_reverse.mpr hc)
    simp at h2
  · rename_i a rest h
    intro hc
    have h2 := List.mem_takeWhile_imp (List.mem_reverse.mp hc)
    simp at h2

theorem hostinfo_fst_sublist (n : List Char) :
    (hostinfo n).1.Sublist (pyrpartition '@' n).2.2 := by
  simp only [hostinfo]
  split
  · exact (pypartition_fst_sublist ']' _).trans (pypartition_third_sublist '[' _)
  · exact pypartition_fst_sublist ':' _

theorem at_not_mem_hostinfo (n : List Char) : '@' ∉ (hostinfo n).1 :=
  fun h => pyrpartition_not_mem_third '@' n ((hostinfo_fst_sublist n).subset h)

theorem pyHostname_no_at (n : List Char) (h : List Char)
    (hh : pyHostname n = some h) : '@' ∉ h := by
  simp only [pyHostname] at hh
  split at hh
  · exact absurd hh (by simp)
  · intro hmem
    rw [← Option.some_inj.mp hh] at hmem
    rcases List.mem_append.mp hmem with hmem | hmem
    · rcases List.mem_map.mp hmem with ⟨x, hx, hlx⟩
      have hx2 : x ∈ (hostinfo n).1 :=
        (pypartition_fst_sublist '%' _).subset hx
      exact at_not_mem_hostinfo n (toLower_eq_at_iff x hlx ▸ hx2)
    · split at hmem
      · rcases List.mem_cons.mp hmem with hmem | hmem
        · exact absurd hmem.symm (by decide)
        · exact at_not_mem_hostinfo n ((pypartition_third_sublist '%' _).subset hmem)
      · simp at hmem

theorem natDigitsGo_ne_at :
    ∀ (fuel n : Nat) (acc : List Char), (∀ x ∈ acc, x ≠ '@') →
      ∀ x ∈ natDigitsGo fuel n acc, x ≠ '@'
  | 0, _, acc, hacc => hacc
  | fuel + 1, n, acc, hacc => by
    simp only [natDigitsGo]
    have hd : Char.ofNat ('0'.toNat + n % 10) ≠ '@' := by
      intro h
      have hval : Nat.isValidChar ('0'.toNat + n % 10) := by
        have h3 : '0'.toNat = 48 := by decide
        have hm : n % 10 < 10 := Nat.mod_lt _ (by omega)
        left
        omega
      have := char_ofNat_toNat _ hval
      rw [h] at this
      have h2 : '@'.toNat = 64 := by decide
      have h3 : '0'.toNat = 48 := by decide
      have : n % 10 < 10 := Nat.mod_lt _ (by omega)
      omega
    split
    · intro x hx
      rcases List.mem_cons.mp hx with hx | hx
      · exact hx ▸ hd
      · exact hacc x hx
    · refine natDigitsGo_ne_at fuel (n / 10) _ ?_
      intro x hx
      rcases List.mem_cons.mp hx with hx | hx
      · exact hx ▸ hd
      · exact hacc x hx

theorem normalizedNetloc_no_at (c : PyUrl) (p : Option Nat) :
    '@' ∉ normalizedNetloc c p := by
  simp only [normalizedNetloc]
  intro hmem
  rcases List.mem_append.mp hmem with hmem | hmem
  · split at hmem
    · rename_i h hh
      rcases List.mem_map.mp hmem with ⟨x, hx, hlx⟩
      exact pyHostname_no_at _ _ hh (toLower_eq_at_iff x hlx ▸ hx)
    · simp at hmem
  · split at hmem
    · rename_i q hq
      split at hmem
      · rcases List.mem_cons.mp hmem with hmem | hmem
        · exact absurd hmem.symm (by decide)
        · exact natDigitsGo_ne_at _ _ _ (by simp) '@' hmem rfl
      · simp at hmem
    · simp at hmem

theorem rstripSlash_decomp (l : List Char) :
    ∃ k, l = rstripSlash l ++ List.replicate k '/' := by
  refine ⟨(l.reverse.takeWhile (fun c => c == '/')).length, ?_⟩
  conv_lhs =>
    rw [← l.reverse_reverse,
      ← List.takeWhile_append_dropWhile (fun c => c == '/') l.reverse]
  rw [List.reverse_append]
  unfold rstripSlash
  congr 1
  have hall : ∀ x ∈ l.reverse.takeWhile (fun c => c == '/'), x = '/' := by
    intro x hx
    have := List.mem_takeWhile_imp hx
    simpa using this
  rw [List.eq_replicate_of_mem hall, List.reverse_replicate, List.length_replicate]

theorem rstripSlash_no_trailing (l : List Char) :
    (rstripSlash l).getLast? ≠ some '/' := by
  unfold rstripSlash
  rw [List.getLast?_reverse]
  have : ∀ (m : List Char), (m.dropWhile (fun c => c == '/')).head? = some '/' → False := by
    intro m
    induction m with
    | nil => simp
    | cons a t ih =>
      by_cases ha : a == '/'
      · rw [List.dropWhile_cons, if_pos ha]
        exact ih
      · rw [List.dropWhile_cons, if_neg ha]
        intro h
        rw [List.head?_cons, Option.some_inj] at h
        exact (by simpa using ha : ¬ a = '/') h
  exact this l.reverse

/-- C7 counterexample: on `"http://u@example.com/a//"` the code strips
    BOTH trailing slashes and drops the user-info, so the output differs
    from the claim's prediction `"http://u@example.com/a/"`. -/
theorem normalize_url_c7_counterexample :
    normalize_url "http://u@example.com/a//" = "http://example.com/a" ∧
      normalize_url "http://u@example.com/a//" ≠ "http://u@example.com/a/" := by
  constructor
  · decide
  · decide

/-- C7 amended: for every URL that parses (with a valid port),
    `normalize_url` rebuilds the URL from: the lowercased scheme, a netloc
    holding only the lowercased hostname and non-default port (the
    user-info is dropped: no `'@'` survives), the path with ALL trailing
    slashes removed (the path is a prefix of the original followed by the
    removed slashes and never ends in `'/'`), and the params, query and
    fragment verbatim. -/
theorem normalize_url_components (u : String) (c : PyUrl) (p : Option Nat)
    (hne : u ≠ "") (hparse : urlparse u = some c)
    (hport : pyPort c.netloc = .ok p) :
    normalize_url u =
        ⟨urlunparse
          ⟨lowerL c.scheme, normalizedNetloc c p, rstripSlash c.path,
           c.params, c.query, c.fragment⟩⟩ ∧
      (∃ k, c.path = rstripSlash c.path ++ List.replicate k '/') ∧
      (rstripSlash c.path).getLast? ≠ some '/' ∧
      '@' ∉ normalizedNetloc c p := by
  refine ⟨?_, rstripSlash_decomp c.path, rstripSlash_no_trailing c.path,
    normalizedNetloc_no_at c p⟩
  simp only [normalize_url, if_neg hne, hparse, hport, normalizedNetloc]

/-- C7 amended witness at `"HTTP://Example.COM:80/a//"`. -/
theorem normalize_url_components_witness :
    normalize_url "HTTP://Example.COM:80/a//" =
        ⟨urlunparse
          ⟨lowerL "http".data,
           normalizedNetloc
             ⟨"http".data, "Example.COM:80".data, "/a//".data, [], [], []⟩ (some 80),
           rstripSlash "/a//".data, [], [], []⟩⟩ ∧
      (∃ k, "/a//".data = rstripSlash "/a//".data ++ List.replicate k '/') ∧
      (rstripSlash "/a//".data).getLast? ≠ some '/' ∧
      '@' ∉ normalizedNetloc
          ⟨"http".data, "Example.COM:80".data, "/a//".data, [], [], []⟩ (some 80) :=
  normalize_url_components "HTTP://Example.COM:80/a//"
    ⟨"http".data, "Example.COM:80".data, "/a//".data, [], [], []⟩ (some 80)
    (by decide) (by decide) rfl

/-! ## C8 : normalization idempotence -/

/-- The component transform `normalize_url` applies between parsing and
    un-parsing. -/
def normalizeComponents (c : PyUrl) (p : Option Nat) : PyUrl :=
  ⟨lowerL c.scheme, normalizedNetloc c p, rstripSlash c.path, c.params, c.query, c.fragment⟩

/-- C8 counterexample: normalization is NOT idempotent on every string.
    `"http://[v1.a:80]/x"` (a bracketed IPvFuture host whose literal
    contains a `':'`) normalizes to `"http://v1.a:80/x"`, which a second
    pass normalizes further to `"http://v1.a/x"`, the `80` now being read
    as a default port.  (Checked against CPython 3.11.6.) -/
theorem normalize_url_not_idempotent :
    normalize_url (normalize_url "http://[v1.a:80]/x") ≠
      normalize_url "http://[v1.a:80]/x" := by decide

/-- C8 amended: normalization is idempotent on every input whose
    normalized form re-parses (with a valid port) to components that are a
    fixpoint of the normalization transform and un-parse back to the same
    string — in particular on ordinary well-formed URLs — but not on every
    string. -/
theorem normalize_url_idempotent_of_stable (u : String) (c : PyUrl) (p : Option Nat)
    (hparse : urlparse (normalize_url u) = some c)
    (hport : pyPort c.netloc = .ok p)
    (hfix : normalizeComponents c p = c)
    (hround : (⟨urlunparse c⟩ : String) = normalize_url u) :
    normalize_url (normalize_url u) = normalize_url u := by
  by_cases h0 : normalize_url u = ""
  · rw [h0]
    rfl
  · have hcomp := normalize_url_components (normalize_url u) c p h0 hparse hport
    rw [hcomp.1]
    rw [show (⟨lowerL c.scheme, normalizedNetloc c p, rstripSlash c.path,
        c.params, c.query, c.fragment⟩ : PyUrl) = normalizeComponents c p from rfl,
      hfix, hround]

/-- C8 amended witness at `"HTTP://Example.COM:80/a//"`. -/
theorem normalize_url_idempotent_witness :
    normalize_url (normalize_url "HTTP://Example.COM:80/a//") =
      normalize_url "HTTP://Example.COM:80/a//" :=
  normalize_url_idempotent_of_stable "HTTP://Example.COM:80/a//"
    ⟨"http".data, "example.com".data, "/a".data, [], [], []⟩ none
    (by decide) rfl (by decide) (by decide)

/-! ## C1 : batch-level fallback of the classifier -/

theorem chunksGo_sublist :
    ∀ (fuel n : Nat) (l b : List α), b ∈ chunksGo n fuel l → b.Sublist l
  | 0, n, l, b => by simp [chunksGo]
  | fuel + 1, n, [], b => by simp [chunksGo]
  | fuel + 1, n, x :: xs, b => by
    simp only [chunksGo]
    intro h
    rcases List.mem_cons.mp h with h | h
    · exact h ▸ List.take_sublist n (x :: xs)
    · exact (chunksGo_sublist fuel n _ b h).trans (List.drop_sublist n (x :: xs))

theorem chunksOf_sublist (n : Nat) (l b : List α) (h : b ∈ chunksOf n l) :
    b.Sublist l := by
  unfold chunksOf at h
  split at h
  · simp at h
  · exact chunksGo_sublist _ n l b h

theorem find?_eq_some_of_unique {p : α → Bool} {l : List α} {a : α}
    (ha : a ∈ l) (hpa : p a = true) (huniq : ∀ x ∈ l, p x = true → x = a) :
    l.find? p = some a := by
  induction l with
  | nil => simp at ha
  | cons x xs ih =>
    by_cases hx : p x = true
    · rw [List.find?_cons_of_pos _ hx, huniq x (List.mem_cons_self x xs) hx]
    · rw [List.find?_cons_of_neg _ (by simpa using hx)]
      rcases List.mem_cons.mp ha with rfl | ha2
      · exact absurd hpa hx
      · exact ih ha2 fun y hy hpy => huniq y (List.mem_cons_of_mem x hy) hpy

/-- C1: if the provider call raises for a batch, then (for present,
    collection-unique ids) every entry of that batch appears in the
    classifier's output with `folder = parent or "Unsorted"`, `tags = []`
    and `confidence = 0.0`; `categorize_bookmarks` is a total function on
    all batches (it never raises, and the failing batch's fallback is just
    one flatMap element among the processed batches). -/
theorem classifier_batch_fallback (entries : List Entry)
    (llm : List PayloadItem → Except String (List LLMItem)) (batch_size : Nat)
    (batch : List Entry) (msg : String) (e : Entry)
    (hids : ∀ x ∈ entries, x.id.isSome)
    (hnodup : (entries.map Entry.id).Nodup)
    (hbatch : batch ∈ chunksOf batch_size entries)
    (hfail : llm (batch.map payloadOf) = .error msg)
    (he : e ∈ batch) :
    { e with
        folder := some (e.parent.getD "Unsorted")
        tags := some []
        confidence := some 0 } ∈ categorize_bookmarks entries llm batch_size := by
  unfold categorize_bookmarks
  refine List.mem_flatMap.mpr ⟨batch, hbatch, ?_⟩
  unfold processBatch
  simp only [hfail]
  refine List.mem_filterMap.mpr ⟨payloadOf e, List.mem_map_of_mem _ he, ?_⟩
  have hee : e ∈ entries := (chunksOf_sublist _ _ _ hbatch).subset he
  obtain ⟨i, hi⟩ := Option.isSome_iff_exists.mp (hids e hee)
  have hpid : (payloadOf e).id = i := by simp [payloadOf, hi]
  have hfind : entries.find? (fun x => x.id = some (payloadOf e).id) = some e := by
    refine find?_eq_some_of_unique hee (by simp [hi, hpid]) ?_
    intro x hx hpx
    simp only [hpid, decide_eq_true_eq] at hpx
    exact List.inj_on_of_nodup_map hnodup hx hee (by rw [hpx, hi])
  rw [hfind]
  simp [fallbackRecord]

/-- C1 witness: two entries, batch size 1, a provider that always raises. -/
theorem classifier_batch_fallback_witness :
    ({ id := some "1", folder := some "Unsorted", tags := some ([] : List String),
        confidence := some 0 } : Entry) ∈
      categorize_bookmarks
        [{ id := some "1" }, { id := some "2" }]
        (fun _ => .error "boom") 1 :=
  classifier_batch_fallback
    [{ id := some "1" }, { id := some "2" }]
    (fun _ => .error "boom") 1 [{ id := some "1" }] "boom" { id := some "1" }
    (by decide) (by decide) (by decide) rfl (by decide)

/-! ## C10 : `build_folders` with `use_llm=False` -/

/-- C10: with `use_llm=False`, `build_folders` only sets every entry's
    `folder` to `parent or "Unsorted"` and returns the list unchanged
    otherwise: no splitting, no renaming, and no confidence demotion (the
    result does not depend on `min_confidence` at all). -/
theorem build_folders_no_llm (entries : List Entry) (max_folder_size : Nat)
    (min_confidence : ℚ) :
    build_folders entries max_folder_size min_confidence false =
      entries.map fun e => { e with folder := some (e.parent.getD "Unsorted") } := by
  simp [build_folders]

/-! ## C5 : the two confidence defaults -/

/-- C5 counterexample: the provider supplies `confidence = 0.9` for a
    validated item, but the validator overwrites it with `0.7`, and the
    merged entry carries `0.7`, not `0.9` — the provider's value is NOT
    preserved. -/
theorem llm_confidence_not_preserved :
    validateItems
        [{ id := some "1", folder := some "F", tags := some ["t"],
           confidence := some (mkRat 9 10) }] =
        [{ id := "1", folder := some "F", tags := some ["t"],
           confidence := some (mkRat 7 10) }] ∧
      (categorize_bookmarks [{ id := some "1" }]
          (fun payload =>
            .ok (categorizeBatchValidate
              [{ id := some "1", folder := some "F", tags := some ["t"],
                 confidence := some (mkRat 9 10) }] payload)) 50).map Entry.confidence =
        [some (mkRat 7 10)] ∧
      mkRat 7 10 ≠ mkRat 9 10 := by decide

/-- C5 amended: every item the LLM-classifier validator emits has
    `confidence = 0.7` unconditionally (a provider-supplied value is
    discarded, not preserved); the general merge path of
    `categorize_bookmarks` uses the item's confidence and defaults an
    absent one to `0.5`. -/
theorem llm_confidence_defaults :
    (∀ (resp : List ProviderItem) (it : LLMItem),
        it ∈ validateItems resp → it.confidence = some (mkRat 7 10)) ∧
      (∀ (e : Entry) (item : LLMItem),
        (mergeRecord e item).confidence = some (item.confidence.getD (mkRat 1 2))) := by
  constructor
  · intro resp it hit
    rcases List.mem_filterMap.mp hit with ⟨a, _, hfa⟩
    split at hfa
    · rw [← Option.some_inj.mp hfa]
    · simp at hfa
  · intro e item
    rfl

/-- C5 amended witness. -/
theorem llm_confidence_defaults_witness :
    (({ id := "1", folder := some "Unsorted", tags := some [],
        confidence := some (mkRat 7 10) } : LLMItem).confidence = some (mkRat 7 10)) ∧
      (mergeRecord {} { id := "1" }).confidence = some (mkRat 1 2) := by
  refine ⟨llm_confidence_defaults.1 [{ id := some "1" }] _ (by decide), ?_⟩
  rw [llm_confidence_defaults.2 {} { id := "1" }]
  decide

/-! ## C4 : the fetcher's retry decorator never retries -/

/-- C4 (code bug): the `@retry(stop=stop_after_attempt(3))` decorator on
    `fetch_single` is dead code: the catch-all `except` inside the body
    converts every raised error into a `fetch_error` annotation and
    returns normally, so tenacity observes no exception and the request is
    attempted exactly ONCE, not up to 3 times.  The rest of the claim
    holds: after the (single) failure `fetch_error` is set to the error
    description, the metadata fields stay absent, and the entry is
    returned without raising. -/
theorem fetch_single_retries_defeated :
    fetch_single (fun _ => .error "ConnectError: boom")
        { id := some "1", url := some "http://down.test/x" } =
      (1, .ok { id := some "1", url := some "http://down.test/x",
                fetch_error := some "ConnectError: boom" }) ∧
      (1 : Nat) ≠ 3 := by
  exact ⟨rfl, by decide⟩

/-! ## Grouping lemmas (shared by the balancer and exporter claims) -/

theorem addToGroups_map_fst (gs : List (String × List Entry)) (k : String) (e : Entry) :
    (addToGroups gs k e).map Prod.fst =
      if k ∈ gs.map Prod.fst then gs.map Prod.fst else gs.map Prod.fst ++ [k] := by
  induction gs with
  | nil => simp [addToGroups]
  | cons g rest ih =>
    obtain ⟨n, its⟩ := g
    by_cases hnk : n = k
    · simp [addToGroups, hnk]
    · simp only [addToGroups, if_neg hnk, List.map_cons, ih]
      by_cases hk : k ∈ rest.map Prod.fst
      · rw [if_pos hk, if_pos (by simp [hk])]
      · rw [if_neg hk, if_neg (by simp [hk, Ne.symm hnk])]
        simp

theorem addToGroups_filter (key : Entry → String) (es0 : List Entry) (e : Entry) :
    ∀ (gs : List (String × List Entry)),
      (∀ g ∈ gs, g.2 = es0.filter (fun x => key x = g.1)) →
      ((gs.map Prod.fst).Nodup) →
      (key e ∈ gs.map Prod.fst ∨ es0.filter (fun x => key x = key e) = []) →
      ∀ g ∈ addToGroups gs (key e) e,
        g.2 = (es0 ++ [e]).filter (fun x => key x = g.1)
  | [], hkey, _, hko => by
    intro g hg
    simp only [addToGroups, List.mem_singleton] at hg
    subst hg
    rcases hko with hko | hko
    · simp at hko
    · simp [List.filter_append, hko]
  | (n, its) :: rest, hkey, hnodup, hko => by
    intro g hg
    by_cases hnk : n = key e
    · simp only [addToGroups, if_pos hnk] at hg
      rcases List.mem_cons.mp hg with hg | hg
      · subst hg
        have h1 := hkey (n, its) (List.mem_cons_self _ _)
        simp only at h1
        simp [List.filter_append, h1, hnk]
      · have h1 := hkey g (List.mem_cons_of_mem _ hg)
        have hgn : g.1 ≠ n := by
          intro hgn
          have : n ∉ rest.map Prod.fst := by
            have := hnodup
            simp only [List.map_cons, List.nodup_cons] at this
            exact this.1
          exact this (hgn ▸ (List.mem_map_of_mem Prod.fst hg))
        rw [h1, List.filter_append]
        have : (List.filter (fun x => decide (key x = g.1)) [e]) = [] := by
          simp [hnk ▸ hgn.symm]
        rw [this, List.append_nil]
    · simp only [addToGroups, if_neg hnk] at hg
      rcases List.mem_cons.mp hg with hg | hg
      · subst hg
        have h1 := hkey (n, its) (List.mem_cons_self _ _)
        simp only at h1
        rw [h1, List.filter_append]
        have : (List.filter (fun x => decide (key x = n)) [e]) = [] := by
          simp [Ne.symm hnk]
        simp only at this ⊢
        rw [this, List.append_nil]
      · refine addToGroups_filter key es0 e rest ?_ ?_ ?_ g hg
        · exact fun g2 hg2 => hkey g2 (List.mem_cons_of_mem _ hg2)
        · have := hnodup
          simp only [List.map_cons, List.nodup_cons] at this
          exact this.2
        · rcases hko with hko | hko
          · rw [List.map_cons] at hko
            rcases List.mem_cons.mp hko with hko | hko
            · exact absurd hko.symm hnk
            · exact Or.inl hko
          · exact Or.inr hko

theorem addToGroups_flat_perm (gs : List (String × List Entry)) (k : String) (e : Entry) :
    ((addToGroups gs k e).flatMap Prod.snd).Perm ((gs.flatMap Prod.snd) ++ [e]) := by
  induction gs with
  | nil => simp [addToGroups]
  | cons g rest ih =>
    obtain ⟨n, its⟩ := g
    by_cases hnk : n = k
    · simp only [addToGroups, if_pos hnk, List.flatMap_cons]
      have h2 := List.Perm.append_left its
        (@List.perm_append_comm _ [e] (rest.flatMap Prod.snd))
      simpa [List.append_assoc] using h2
    · simp only [addToGroups, if_neg hnk, List.flatMap_cons]
      have h2 := List.Perm.append_left its ih
      simpa [List.append_assoc] using h2

theorem groupByKey_go (key : Entry → String) :
    ∀ (es es0 : List Entry) (gs : List (String × List Entry)),
      ((gs.map Prod.fst).Nodup) →
      (∀ g ∈ gs, g.2 = es0.filter (fun x => key x = g.1)) →
      (∀ x ∈ es0, key x ∈ gs.map Prod.fst) →
      ((gs.flatMap Prod.snd).Perm es0) →
      (((es.foldl (fun gs e => addToGroups gs (key e) e) gs).map Prod.fst).Nodup) ∧
        (∀ g ∈ es.foldl (fun gs e => addToGroups gs (key e) e) gs,
          g.2 = (es0 ++ es).filter (fun x => key x = g.1)) ∧
        (∀ x ∈ es0 ++ es,
          key x ∈ (es.foldl (fun gs e => addToGroups gs (key e) e) gs).map Prod.fst) ∧
        (((es.foldl (fun gs e => addToGroups gs (key e) e) gs).flatMap Prod.snd).Perm
          (es0 ++ es))
  | [], es0, gs, hnodup, hkey, hcov, hperm => by
    simp only [List.foldl_nil, List.append_nil]
    exact ⟨hnodup, hkey, hcov, hperm⟩
  | e :: es, es0, gs, hnodup, hkey, hcov, hperm => by
    have hmapfst := addToGroups_map_fst gs (key e) e
    have hnodup2 : ((addToGroups gs (key e) e).map Prod.fst).Nodup := by
      rw [hmapfst]
      by_cases hk : key e ∈ gs.map Prod.fst
      · rwa [if_pos hk]
      · rw [if_neg hk]
        simp only [List.nodup_append, List.nodup_cons]
        exact ⟨hnodup, by simp, by simpa using hk⟩
    have hko : key e ∈ gs.map Prod.fst ∨ es0.filter (fun x => key x = key e) = [] := by
      by_cases hk : key e ∈ gs.map Prod.fst
      · exact Or.inl hk
      · refine Or.inr (List.filter_eq_nil_iff.mpr ?_)
        intro x hx
        simp only [decide_eq_true_eq]
        intro hxk
        exact hk (hxk ▸ hcov x hx)
    have hkey2 := addToGroups_filter key es0 e gs hkey hnodup hko
    have hcov2 : ∀ x ∈ es0 ++ [e], key x ∈ (addToGroups gs (key e) e).map Prod.fst := by
      intro x hx
      rw [hmapfst]
      rcases List.mem_append.mp hx with hx | hx
      · have := hcov x hx
        by_cases hk : key e ∈ gs.map Prod.fst
        · rwa [if_pos hk]
        · rw [if_neg hk]; exact List.mem_append_left _ this
      · rw [List.mem_singleton.mp hx]
        by_cases hk : key e ∈ gs.map Prod.fst
        · rwa [if_pos hk]
        · rw [if_neg hk]; exact List.mem_append_right _ (by simp)
    have hperm2 : ((addToGroups gs (key e) e).flatMap Prod.snd).Perm (es0 ++ [e]) :=
      (addToGroups_flat_perm gs (key e) e).trans (hperm.append (List.Perm.refl [e]))
    have ih := groupByKey_go key es (es0 ++ [e]) (addToGroups gs (key e) e)
      hnodup2 hkey2 hcov2 hperm2
    have heq : (es0 ++ [e]) ++ es = es0 ++ e :: es := by simp
    rw [List.foldl_cons, ← heq]
    exact ih

theorem groupByKey_nodup (key : Entry → String) (es : List Entry) :
    ((groupByKey key es).map Prod.fst).Nodup :=
  (groupByKey_go key es [] [] (by simp) (by simp) (by simp) (by simp)).1

theorem groupByKey_filter (key : Entry → String) (es : List Entry) :
    ∀ g ∈ groupByKey key es, g.2 = es.filter (fun x => key x = g.1) := by
  have h := (groupByKey_go key es [] [] (by simp) (by simp) (by simp) (by simp)).2.1
  simpa using h

theorem groupByKey_perm (key : Entry → String) (es : List Entry) :
    ((groupByKey key es).flatMap Prod.snd).Perm es := by
  have h := (groupByKey_go key es [] [] (by simp) (by simp) (by simp) (by simp)).2.2.2
  simpa using h

theorem groupByKey_mem_key (key : Entry → String) (es : List Entry)
    (g : String × List Entry) (hg : g ∈ groupByKey key es) :
    ∀ e ∈ g.2, key e = g.1 := by
  intro e he
  have := groupByKey_filter key es g hg
  rw [this] at he
  simpa using (List.mem_filter.mp he).2

/-! ## C3 : the balancer's folder-size bound -/

theorem chunksGo_length_le :
    ∀ (fuel n : Nat) (l b : List α), b ∈ chunksGo n fuel l → b.length ≤ n
  | 0, n, l, b => by simp [chunksGo]
  | fuel + 1, n, [], b => by simp [chunksGo]
  | fuel + 1, n, x :: xs, b => by
    simp only [chunksGo]
    intro h
    rcases List.mem_cons.mp h with h | h
    · rw [h, List.length_take]
      exact min_le_left _ _
    · exact chunksGo_length_le fuel n _ b h

theorem chunksOf_length_le (n : Nat) (l b : List α) (h : b ∈ chunksOf n l) :
    b.length ≤ n := by
  unfold chunksOf at h
  split at h
  · simp at h
  · exact chunksGo_length_le _ n l b h

theorem splitLargeGroup_length_le (items : List Entry) (max_size : Nat)
    (sg : List Entry) (hsg : sg ∈ splitLargeGroup items max_size) :
    sg.length ≤ max_size := by
  unfold splitLargeGroup at hsg
  rcases List.mem_flatMap.mp hsg with ⟨dg, _, hdg2⟩
  split at hdg2
  · rename_i hle
    rw [List.mem_singleton.mp hdg2]
    exact hle
  · rcases List.mem_flatMap.mp hdg2 with ⟨tg, _, htg2⟩
    split at htg2
    · rename_i hle
      rw [List.mem_singleton.mp htg2]
      exact hle
    · exact chunksOf_length_le _ _ _ htg2

theorem organizedPieces_length_le (entries : List Entry) (max_size : Nat)
    (pc : String × List Entry) (hpc : pc ∈ organizedPieces entries max_size) :
    pc.2.length ≤ max_size := by
  unfold organizedPieces at hpc
  rcases List.mem_flatMap.mp hpc with ⟨g, _, hg2⟩
  unfold processGroup at hg2
  split at hg2
  · rename_i hle
    rw [List.mem_singleton.mp hg2]
    exact hle
  · rcases List.mem_map.mp hg2 with ⟨p, hp, hpeq⟩
    rcases List.mem_enum hp with ⟨_, hp2⟩
    have hmem : p.2 ∈ splitLargeGroup g.2 max_size := by
      rw [hp2]
      exact List.getElem_mem _
    have := splitLargeGroup_length_le g.2 max_size p.2 hmem
    rw [← hpeq]
    simpa using this

theorem organizedPieces_key (entries : List Entry) (max_size : Nat)
    (pc : String × List Entry) (hpc : pc ∈ organizedPieces entries max_size) :
    ∀ e ∈ pc.2, folderKey e = pc.1 := by
  unfold organizedPieces at hpc
  rcases List.mem_flatMap.mp hpc with ⟨g, hg, hg2⟩
  unfold processGroup at hg2
  split at hg2
  · rw [List.mem_singleton.mp hg2]
    exact groupByKey_mem_key folderKey entries g hg
  · rcases List.mem_map.mp hg2 with ⟨p, _, hpeq⟩
    intro e he
    rw [← hpeq] at he ⊢
    simp only at he
    rcases List.mem_map.mp he with ⟨it, _, hit⟩
    rw [← hit]
    simp [folderKey]

theorem pieces_filter_count (max_size : Nat) (name : String) :
    ∀ (ps : List (String × List Entry)),
      ((ps.map Prod.fst).Nodup) →
      (∀ pc ∈ ps, ∀ e ∈ pc.2, folderKey e = pc.1) →
      (∀ pc ∈ ps, pc.2.length ≤ max_size) →
      ((ps.flatMap Prod.snd).filter (fun e => folderKey e = name)).length ≤ max_size
  | [], _, _, _ => by simp
  | (n, its) :: rest, hnodup, hkeys, hsizes => by
    simp only [List.flatMap_cons, List.filter_append, List.length_append]
    have hnodup2 : ((rest.map Prod.fst).Nodup) := by
      have := hnodup
      simp only [List.map_cons, List.nodup_cons] at this
      exact this.2
    by_cases hn : n = name
    · have hrest : ((rest.flatMap Prod.snd).filter (fun e => folderKey e = name)) = [] := by
        refine List.filter_eq_nil_iff.mpr ?_
        intro e he
        rcases List.mem_flatMap.mp he with ⟨pc, hpc, hepc⟩
        have h1 := hkeys pc (List.mem_cons_of_mem _ hpc) e hepc
        have h2 : pc.1 ≠ name := by
          intro h2
          have : n ∉ rest.map Prod.fst := by
            have := hnodup
            simp only [List.map_cons, List.nodup_cons] at this
            exact this.1
          exact this ((hn.trans h2.symm) ▸ List.mem_map_of_mem Prod.fst hpc)
        simp [h1, h2]
      rw [hrest]
      have hits : (its.filter (fun e => folderKey e = name)).length ≤ its.length :=
        List.length_filter_le _ _
      have := hsizes (n, its) (List.mem_cons_self _ _)
      simp only [List.length_nil, Nat.add_zero]
      exact hits.trans this
    · have hits : (its.filter (fun e => folderKey e = name)) = [] := by
        refine List.filter_eq_nil_iff.mpr ?_
        intro e he
        have h1 := hkeys (n, its) (List.mem_cons_self _ _) e he
        simp only at h1
        simp [h1, hn]
      rw [hits]
      simp only [List.length_nil, Nat.zero_add]
      exact pieces_filter_count max_size name rest hnodup2
        (fun pc hpc => hkeys pc (List.mem_cons_of_mem _ hpc))
        (fun pc hpc => hsizes pc (List.mem_cons_of_mem _ hpc))

/-- C3 counterexample: with `max_folder_size = 1`, two entries in folder
    `"A"` are split into `"A (1)"` and `"A (2)"`, but a third entry already
    sits in a folder literally named `"A (1)"`; the final `"A (1)"` holds 2
    entries, exceeding the bound, and `"A (1)" ≠ "Unsorted"`. -/
theorem build_folders_bound_counterexample :
    (((build_folders
          [{ id := some "1", folder := some "A", domain := some "d", confidence := some 1 },
           { id := some "2", folder := some "A", domain := some "d", confidence := some 1 },
           { id := some "3", folder := some "A (1)", domain := some "d", confidence := some 1 }]
          1 (mkRat 2 5) true).filter (fun e => folderKey e = "A (1)")).length = 2) ∧
      ¬ (2 ≤ 1) ∧ ("A (1)" : String) ≠ "Unsorted" := by decide

/-- C3 amended: after `build_folders` (the LLM balancing path, positive
    `max_folder_size`), every folder name other than `"Unsorted"` is
    carried by at most `max_folder_size` entries PROVIDED the folder/piece
    names produced by grouping and splitting are pairwise distinct; a
    pre-existing folder named like a generated split name `"X (i)"` breaks
    the bound (see the counterexample).  Only `"Unsorted"` is unbounded. -/
theorem build_folders_size_bound (entries : List Entry) (max_folder_size : Nat)
    (min_confidence : ℚ) (name : String)
    (_hmax : 1 ≤ max_folder_size)
    (hnodup : ((organizedPieces entries max_folder_size).map Prod.fst).Nodup)
    (hname : name ≠ "Unsorted") :
    ((build_folders entries max_folder_size min_confidence true).filter
        (fun e => folderKey e = name)).length ≤ max_folder_size := by
  unfold build_folders
  rw [if_neg (by simp)]
  simp only [List.filter_append, List.length_append]
  have hdem :
      ((((organizedPieces entries max_folder_size).flatMap Prod.snd).filter
            (fun e => e.confidence.getD 0 < min_confidence)).map
          (fun e => { e with folder := some "Unsorted" })).filter
        (fun e => folderKey e = name) = [] := by
    refine List.filter_eq_nil_iff.mpr ?_
    intro e he
    rcases List.mem_map.mp he with ⟨x, _, hx⟩
    rw [← hx]
    simp [folderKey, hname.symm]
  rw [hdem]
  simp only [List.length_nil, Nat.add_zero]
  have hsub :
      ((((organizedPieces entries max_folder_size).flatMap Prod.snd).filter
            (fun e => ¬ e.confidence.getD 0 < min_confidence)).filter
          (fun e => folderKey e = name)).length ≤
        (((organizedPieces entries max_folder_size).flatMap Prod.snd).filter
            (fun e => folderKey e = name)).length := by
    have h1 :
        (((organizedPieces entries max_folder_size).flatMap Prod.snd).filter
            (fun e => ¬ e.confidence.getD 0 < min_confidence)).Sublist
          ((organizedPieces entries max_folder_size).flatMap Prod.snd) :=
      List.filter_sublist _
    exact (h1.filter _).length_le
  refine hsub.trans ?_
  exact pieces_filter_count max_folder_size name _ hnodup
    (organizedPieces_key entries max_folder_size)
    (organizedPieces_length_le entries max_folder_size)

/-- C3 amended witness: two singleton folders, `max_folder_size = 1`. -/
theorem build_folders_size_bound_witness :
    ((build_folders
        [{ id := some "1", folder := some "A", confidence := some 1 },
         { id := some "2", folder := some "B", confidence := some 1 }]
        1 0 true).filter (fun e => folderKey e = "A")).length ≤ 1 :=
  build_folders_size_bound
    [{ id := some "1", folder := some "A", confidence := some 1 },
     { id := some "2", folder := some "B", confidence := some 1 }]
    1 0 "A" (by decide) (by decide) (by decide)

/-! ## C9 : the exporter is a partition of the entries -/

theorem enumFrom_flatMap_snd {β : Type} (f : String × List Entry → List β) :
    ∀ (n : Nat) (l : List (String × List Entry)),
      (List.enumFrom n l).flatMap (fun p => f p.2) = l.flatMap f
  | _, [] => rfl
  | n, x :: xs => by
    simp only [List.enumFrom, List.flatMap_cons]
    rw [enumFrom_flatMap_snd f (n + 1) xs]

theorem enumFrom_map_snd {β : Type} (f : String × List Entry → β) :
    ∀ (n : Nat) (l : List (String × List Entry)),
      (List.enumFrom n l).map (fun p => f p.2) = l.map f
  | _, [] => rfl
  | n, x :: xs => by
    simp only [List.enumFrom, List.map_cons]
    rw [enumFrom_map_snd f (n + 1) xs]

theorem flatMap_perm_pointwise {α β : Type} (f g : α → List β) :
    ∀ (l : List α), (∀ a ∈ l, (f a).Perm (g a)) → (l.flatMap f).Perm (l.flatMap g)
  | [], _ => by simp
  | x :: xs, h => by
    simp only [List.flatMap_cons]
    exact (h x (List.mem_cons_self _ _)).append
      (flatMap_perm_pointwise f g xs fun a ha => h a (List.mem_cons_of_mem _ ha))

theorem export_children_eq (entries : List Entry) (now_us : String) :
    (export_to_chrome_format entries now_us).flatMap FolderNode.children =
      (jsonFolderGroups entries).flatMap
        (fun g => (pySortByDateKey0 g.2).map mkBookmarkNode) := by
  unfold export_to_chrome_format
  rw [List.flatMap_map]
  have h := enumFrom_flatMap_snd
    (fun g => (pySortByDateKey0 g.2).map mkBookmarkNode) 0 (jsonFolderGroups entries)
  simpa [List.enum] using h

theorem export_names_eq (entries : List Entry) (now_us : String) :
    (export_to_chrome_format entries now_us).map FolderNode.name =
      (jsonFolderGroups entries).map Prod.fst := by
  unfold export_to_chrome_format
  rw [List.map_map]
  have h := enumFrom_map_snd Prod.fst 0 (jsonFolderGroups entries)
  simpa [List.enum, Function.comp] using h

/-- C9: in both exporters, every entry appears exactly once (the flattened
    output is a permutation of the input), under the unique folder node
    whose name is that entry's (defaulted) folder key — in particular, an
    entry whose `folder` field is set is placed under exactly that name.
    JSON groups by `folder or "Unsorted"`, HTML by
    `folder or parent or "Unsorted"`; both agree on any entry whose
    `folder` field is present. -/
theorem exporter_partition (entries : List Entry) (now_us : String) :
    (((export_to_chrome_format entries now_us).flatMap FolderNode.children).Perm
        (entries.map mkBookmarkNode)) ∧
      (∀ fn ∈ export_to_chrome_format entries now_us,
        fn.children =
          (pySortByDateKey0 (entries.filter fun e => folderKey e = fn.name)).map
            mkBookmarkNode) ∧
      (((export_to_chrome_format entries now_us).map FolderNode.name).Nodup) ∧
      (((htmlFolders entries).flatMap Prod.snd).Perm entries) ∧
      (∀ g ∈ htmlFolders entries,
        g.2 = pySortByDateKey0 (entries.filter fun e => htmlKey e = g.1)) ∧
      (((htmlFolders entries).map Prod.fst).Nodup) := by
  refine ⟨?_, ?_, ?_, ?_, ?_, ?_⟩
  · rw [export_children_eq]
    have h1 : ((jsonFolderGroups entries).flatMap
          (fun g => (pySortByDateKey0 g.2).map mkBookmarkNode)).Perm
        ((jsonFolderGroups entries).flatMap (fun g => g.2.map mkBookmarkNode)) := by
      refine flatMap_perm_pointwise _ _ _ ?_
      intro g _
      exact (List.perm_insertionSort _ g.2).map mkBookmarkNode
    refine h1.trans ?_
    rw [← List.map_flatMap]
    exact (groupByKey_perm folderKey entries).map mkBookmarkNode
  · intro fn hfn
    unfold export_to_chrome_format at hfn
    rcases List.mem_map.mp hfn with ⟨p, hp, hpeq⟩
    rcases List.mem_enum hp with ⟨_, hp2⟩
    have hmem : p.2 ∈ jsonFolderGroups entries := by
      rw [hp2]; exact List.getElem_mem _
    have hfil := groupByKey_filter folderKey entries p.2 hmem
    rw [← hpeq]
    simp only
    rw [hfil]
  · rw [export_names_eq]
    exact groupByKey_nodup folderKey entries
  · unfold htmlFolders
    rw [List.flatMap_map]
    simp only
    have h1 : (((groupByKey htmlKey entries).insertionSort
            (fun a b => pyStrLe a.1.data b.1.data = true)).flatMap
          (fun g => pySortByDateKey0 g.2)).Perm
        (((groupByKey htmlKey entries).insertionSort
            (fun a b => pyStrLe a.1.data b.1.data = true)).flatMap Prod.snd) := by
      refine flatMap_perm_pointwise _ _ _ ?_
      intro g _
      exact List.perm_insertionSort _ g.2
    refine h1.trans ?_
    refine ((List.perm_insertionSort _ _).flatMap_right Prod.snd).trans ?_
    exact groupByKey_perm htmlKey entries
  · intro g hg
    unfold htmlFolders at hg
    rcases List.mem_map.mp hg with ⟨g0, hg0, hgeq⟩
    have hmem : g0 ∈ groupByKey htmlKey entries :=
      (List.perm_insertionSort _ _).subset hg0
    have hfil := groupByKey_filter htmlKey entries g0 hmem
    rw [← hgeq]
    simp only
    rw [hfil]
  · unfold htmlFolders
    rw [List.map_map]
    have h2 : ((Prod.fst ∘ fun g : String × List Entry => (g.1, pySortByDateKey0 g.2)) =
        Prod.fst) := by
      funext g
      rfl
    rw [h2]
    exact ((List.perm_insertionSort _ _).map Prod.fst).nodup_iff.mpr
      (groupByKey_nodup htmlKey entries)

end BookmarkCli
